import Mathlib

/-!
Verification of the CIR estimation core of odr-dab-cir
(`src/correlate_with_ref.py`, class `CIR_Correlate`).

The sample stream and phase reference are modelled as lists of complex
numbers; floating point arithmetic is modelled by exact real/complex
arithmetic.  Python slices (which clamp at the end of the array) are
modelled by `pySlice`; `np.corrcoef(x, y)` is modelled by `corrcoef01`,
which fails (numpy raises ValueError from the shape mismatch in
`np.cov`) when the two inputs have different lengths, and otherwise
returns `cov(x,y)[0,1] / (sqrt(cov[0,0].re) * sqrt(cov[1,1].re))`.
Division by zero follows the Lean convention `x / 0 = 0` where numpy
would produce NaN; the claims that hinge on a zero divisor are treated
explicitly.
-/

namespace OdrDabCir

/-- NULL symbol length in samples (constant `T_NULL` in the source). -/
def T_NULL : ℕ := 2656

/-- Transmission frame length in samples (constant `T_TF` in the source). -/
def T_TF : ℕ := 196608

/-- Subsampling stride of the power scan (local `N` in `calc_one_cir_`). -/
def nStride : ℕ := 20

/-- Number of candidate delays (`max_component_delay` in `calc_one_cir_`). -/
def max_component_delay : ℕ := 1000

/-- Python slice `l[a:b]` for nonnegative bounds: clamps at the list end. -/
def pySlice (l : List ℂ) (a b : ℕ) : List ℂ := (l.drop a).take (b - a)

/-- Python `range(0, stop, step)` for positive `step`. -/
def pyRange (stop step : ℕ) : List ℕ :=
  (List.range ((stop + step - 1) / step)).map (fun k => k * step)

/-- `np.abs(x).sum()` for a complex vector. -/
noncomputable def absSum (l : List ℂ) : ℝ := (l.map Complex.abs).sum

/-- The minimum value of a list of reals (the value located by `np.argmin`). -/
noncomputable def minVal : List ℝ → ℝ
  | [] => 0
  | x :: xs => xs.foldl min x

/-- `np.argmin`: index of the first occurrence of the minimum. -/
noncomputable def argmin (l : List ℝ) : ℕ := l.indexOf (minVal l)

/-- The power profile `channel_out_power` of `calc_one_cir_`: magnitude sums
over sliding windows of length `T_NULL`, stepped by `nStride` over the
first transmission frame. -/
noncomputable def channel_out_power (channel : List ℂ) (start_ix : ℕ) : List ℝ :=
  (pyRange (T_TF - T_NULL) nStride).map
    (fun t => absSum (pySlice channel (start_ix + t) (start_ix + t + T_NULL)))

/-- The detected NULL-symbol offset:
`t_null = N * channel_out_power.argmin()` in `calc_one_cir_`. -/
noncomputable def tNull (channel : List ℂ) (start_ix : ℕ) : ℕ :=
  nStride * argmin (channel_out_power channel start_ix)

/-- Mean of a complex vector, as used inside `np.cov`. -/
noncomputable def listMean (l : List ℂ) : ℂ := l.sum / (l.length : ℂ)

/-- `np.cov(x, y)[0,1]`: sample covariance with `ddof = 1`; numpy
conjugates the second argument. -/
noncomputable def cov01 (x y : List ℂ) : ℂ :=
  (((x.zip y).map
      (fun p => (p.1 - listMean x) * (starRingEnd ℂ) (p.2 - listMean y))).sum)
    / (((x.length : ℝ) - 1 : ℝ) : ℂ)

/-- `np.corrcoef(x, y)[0,1]`.  When the lengths differ, `np.cov` raises a
ValueError (shape mismatch in the concatenation), modelled as `none`. -/
noncomputable def corrcoef01 (x y : List ℂ) : Option ℂ :=
  if x.length = y.length then
    some (cov01 x y /
      ((Real.sqrt (cov01 x x).re * Real.sqrt (cov01 y y).re : ℝ) : ℂ))
  else none

/-- Sequencing of a list of optional values: `none` as soon as any element
is `none` (a list comprehension that aborts at the first failure). -/
def seqOption {α : Type} : List (Option α) → Option (List α)
  | [] => some []
  | none :: _ => none
  | some a :: rest => (seqOption rest).map (fun l => a :: l)

/-- The body of `calc_one_cir_` after the NULL search: the bank of
`max_component_delay` normalized correlation magnitudes, divided by the
channel power of the frame.  Result is `none` when any correlation window
runs past the end of the recording (numpy aborts with ValueError). -/
noncomputable def calcOneCir (phase_ref channel : List ℂ) (start_ix : ℕ) :
    Option (List ℝ) :=
  let corr_start_ix := tNull channel start_ix + T_NULL - 50
  let cir := seqOption ((List.range max_component_delay).map (fun i =>
    Option.map Complex.abs (corrcoef01
      (pySlice channel (start_ix + corr_start_ix + i)
        (start_ix + corr_start_ix + phase_ref.length + i))
      phase_ref)))
  let channel_power := absSum (pySlice channel start_ix (start_ix + T_TF))
  Option.map (fun c => c.map (fun v => v / channel_power)) cir

/-- `calc_one_cir_` with the mutation of `self.null_symbol_ixs` made
explicit: the detected NULL offset is appended to the log before the
correlation bank is computed, so it stays recorded even when the
correlation aborts. -/
noncomputable def calcOneCirS (phase_ref channel : List ℂ) (start_ix : ℕ)
    (log : List ℕ) : List ℕ × Option (List ℝ) :=
  (log ++ [tNull channel start_ix], calcOneCir phase_ref channel start_ix)

/-- One step of the frame loop of `plot`: combine the result of one
`calc_one_cir_` call with the processing of the remaining frames,
propagating a failure (a raised exception aborts the comprehension). -/
noncomputable def procFrame (r : List ℕ × Option (List ℝ))
    (rest : List ℕ → List ℕ × Option (List (List ℝ))) :
    List ℕ × Option (List (List ℝ)) :=
  match r with
  | (log1, none) => (log1, none)
  | (log1, some v) =>
    match rest log1 with
    | (log2, none) => (log2, none)
    | (log2, some vs) => (log2, some (v :: vs))

/-- The frame loop of `plot`: one `calc_one_cir_` call per frame start,
threading the NULL-offset log, aborting the whole scan at the first
failing frame. -/
noncomputable def runFrames (phase_ref channel : List ℂ) (ks : List ℕ) :
    List ℕ → List ℕ × Option (List (List ℝ)) :=
  ks.rec (motive := fun _ => List ℕ → List ℕ × Option (List (List ℝ)))
    (fun log => (log, some []))
    (fun k _ rec log => procFrame (calcOneCirS phase_ref channel (k * T_TF) log) rec)

/-- The scan performed by `plot`: `num_correlations = int(len(channel)/T_TF)`
frames, with the NULL-offset log reset at the start. -/
noncomputable def plotScan (phase_ref channel : List ℂ) :
    List ℕ × Option (List (List ℝ)) :=
  runFrames phase_ref channel (List.range (channel.length / T_TF)) []

/-! ### Auxiliary definitions for concrete test inputs -/

/-- Sum of sample magnitudes of `f` over the index window `[a, a + n)`. -/
noncomputable def wSum (f : ℕ → ℂ) (a n : ℕ) : ℝ :=
  ((List.range' a n).map (fun i => Complex.abs (f i))).sum

/-- An all-zero recording of exactly one transmission frame. -/
def zeroChannel : List ℂ := (List.range T_TF).map (fun _ => 0)

/-- A phase reference of the expected length 2552, all zero. -/
def refZ : List ℂ := List.replicate 2552 0

/-- A phase reference that is silent for 50 samples and then constant 1. -/
def refC : List ℂ := List.replicate 50 0 ++ List.replicate 2502 1

/-- Sample generator embedding a copy of `refC` so that its nonzero part
occupies the index window `[2656, 5158)`. -/
def fC (i : ℕ) : ℂ := if 2656 ≤ i ∧ i < 5158 then 1 else 0

/-- One-frame recording that is silent except for an embedded copy of
`refC` starting at index 2606. -/
def chC : List ℂ := (List.range T_TF).map fC

/-- Sample generator with an all-zero NULL window of length 2656 at
offset 10, guarded on both sides by samples of magnitude 1, and tiny
(but nonzero) samples everywhere else. -/
noncomputable def fC5 (i : ℕ) : ℂ :=
  if i < 10 then 1 else if i < 2666 then 0
  else if i < 2680 then 1 else ((1 / 1000 : ℝ) : ℂ)

/-- One-frame recording built from `fC5`: its only all-zero window of
NULL-symbol length starts at offset 10. -/
noncomputable def chC5 : List ℂ := (List.range T_TF).map fC5

/-- One-frame recording whose samples all equal `c` except for an
all-zero NULL window of length `T_NULL` at offset `p`. -/
def nullChannel (p : ℕ) (c : ℂ) : List ℂ :=
  (List.range T_TF).map (fun i => if p ≤ i ∧ i < p + T_NULL then 0 else c)

/-! ### List toolkit -/

theorem drop_range' : ∀ (n a s : ℕ),
    (List.range' s n).drop a = List.range' (s + a) (n - a)
  | n, 0, s => by simp
  | 0, a + 1, s => by simp
  | n + 1, a + 1, s => by
    rw [List.range'_succ, List.drop_succ_cons, drop_range' n a (s + 1)]
    congr 1 <;> omega

theorem take_range' : ∀ (n a s : ℕ),
    (List.range' s n).take a = List.range' s (min a n)
  | n, 0, s => by simp
  | 0, a + 1, s => by simp
  | n + 1, a + 1, s => by
    rw [List.range'_succ, List.take_succ_cons, take_range' n a (s + 1)]
    rw [show min (a + 1) (n + 1) = min a n + 1 by omega, List.range'_succ]

theorem foldl_min_le_init (xs : List ℝ) : ∀ x : ℝ, xs.foldl min x ≤ x := by
  induction xs with
  | nil => intro x; simp
  | cons y ys ih =>
    intro x
    exact le_trans (ih (min x y)) (min_le_left x y)

theorem foldl_min_le_mem (xs : List ℝ) :
    ∀ (x y : ℝ), y ∈ xs → xs.foldl min x ≤ y := by
  induction xs with
  | nil => intro x y h; cases h
  | cons z zs ih =>
    intro x y h
    rcases List.mem_cons.mp h with rfl | h
    · exact le_trans (foldl_min_le_init zs (min x y)) (min_le_right x y)
    · exact ih (min x z) y h

theorem foldl_min_mem (xs : List ℝ) :
    ∀ x : ℝ, xs.foldl min x = x ∨ xs.foldl min x ∈ xs := by
  induction xs with
  | nil => intro x; left; rfl
  | cons z zs ih =>
    intro x
    rcases ih (min x z) with h | h
    · rcases le_total x z with hle | hle
      · left; rw [List.foldl_cons, h, min_eq_left hle]
      · right; rw [List.foldl_cons, h, min_eq_right hle]
        exact List.mem_cons_self z zs
    · right; exact List.mem_cons_of_mem z h

theorem minVal_le {l : List ℝ} {x : ℝ} (h : x ∈ l) : minVal l ≤ x := by
  cases l with
  | nil => cases h
  | cons y ys =>
    rcases List.mem_cons.mp h with rfl | h
    · exact foldl_min_le_init ys x
    · exact foldl_min_le_mem ys y x h

theorem minVal_mem {l : List ℝ} (h : l ≠ []) : minVal l ∈ l := by
  cases l with
  | nil => exact absurd rfl h
  | cons y ys =>
    rcases foldl_min_mem ys y with h1 | h1
    · rw [minVal, h1]; exact List.mem_cons_self y ys
    · exact List.mem_cons_of_mem y h1

theorem argmin_lt_length {l : List ℝ} (h : l ≠ []) : argmin l < l.length :=
  List.indexOf_lt_length.mpr (minVal_mem h)

theorem indexOf_get_of_ne_before (l : List ℝ) :
    ∀ (i : ℕ) (hi : i < l.length),
      (∀ (j : ℕ) (hj : j < i), l.get ⟨j, lt_trans hj hi⟩ ≠ l.get ⟨i, hi⟩) →
      l.indexOf (l.get ⟨i, hi⟩) = i := by
  induction l with
  | nil => intro i hi; simp at hi
  | cons x xs ih =>
    intro i hi hne
    cases i with
    | zero => exact List.indexOf_cons_self x xs
    | succ j =>
      have hx : x ≠ (x :: xs).get ⟨j + 1, hi⟩ :=
        hne 0 (Nat.succ_pos j)
      rw [List.indexOf_cons_ne _ hx]
      have hj' : j < xs.length := Nat.lt_of_succ_lt_succ hi
      have : (x :: xs).get ⟨j + 1, hi⟩ = xs.get ⟨j, hj'⟩ := rfl
      rw [this]
      rw [ih j hj' (fun k hk => hne (k + 1) (Nat.succ_lt_succ hk))]

theorem argmin_eq (l : List ℝ) (i : ℕ) (hi : i < l.length)
    (hmin : ∀ (j : ℕ) (hj : j < l.length), l.get ⟨i, hi⟩ ≤ l.get ⟨j, hj⟩)
    (hlt : ∀ (j : ℕ) (hj : j < i), l.get ⟨i, hi⟩ < l.get ⟨j, lt_trans hj hi⟩) :
    argmin l = i := by
  have hne : l ≠ [] := by
    intro h; rw [h] at hi; simp at hi
  have h1 : minVal l = l.get ⟨i, hi⟩ := by
    apply le_antisymm (minVal_le (l.get_mem i hi))
    rcases List.mem_iff_get.mp (minVal_mem hne) with ⟨k, hk⟩
    rw [← hk]
    exact hmin k k.isLt
  rw [argmin, h1]
  exact indexOf_get_of_ne_before l i hi (fun j hj => ne_of_gt (hlt j hj))

/-! ### seqOption lemmas -/

theorem seqOption_map_some {α β : Type} (f : β → α) (l : List β) :
    seqOption (l.map (fun b => some (f b))) = some (l.map f) := by
  induction l with
  | nil => rfl
  | cons x xs ih => simp [seqOption, ih]

theorem seqOption_length {α : Type} :
    ∀ {l : List (Option α)} {v : List α}, seqOption l = some v → v.length = l.length := by
  intro l
  induction l with
  | nil => intro v h; simp [seqOption] at h; simp [← h]
  | cons o os ih =>
    intro v h
    cases o with
    | none => simp [seqOption] at h
    | some a =>
      simp only [seqOption, Option.map_eq_some'] at h
      obtain ⟨w, hw, rfl⟩ := h
      simp [ih hw]

theorem seqOption_mem {α : Type} :
    ∀ {l : List (Option α)} {v : List α}, seqOption l = some v →
      ∀ x ∈ v, some x ∈ l := by
  intro l
  induction l with
  | nil => intro v h x hx; simp [seqOption] at h; subst h; cases hx
  | cons o os ih =>
    intro v h x hx
    cases o with
    | none => simp [seqOption] at h
    | some a =>
      simp only [seqOption, Option.map_eq_some'] at h
      obtain ⟨w, hw, rfl⟩ := h
      rcases List.mem_cons.mp hx with rfl | hx
      · exact List.mem_cons_self _ _
      · exact List.mem_cons_of_mem _ (ih hw x hx)

theorem seqOption_eq_none {α : Type} :
    ∀ {l : List (Option α)}, none ∈ l → seqOption l = none := by
  intro l
  induction l with
  | nil => intro h; cases h
  | cons o os ih =>
    intro h
    cases o with
    | none => rfl
    | some a =>
      rcases List.mem_cons.mp h with h1 | h1
      · exact absurd h1.symm (by simp)
      · simp [seqOption, ih h1]

/-! ### Sums of magnitudes over index windows -/

theorem wSum_nonneg (f : ℕ → ℂ) (a n : ℕ) : 0 ≤ wSum f a n := by
  apply List.sum_nonneg
  intro x hx
  rcases List.mem_map.mp hx with ⟨i, _, rfl⟩
  exact Complex.abs.nonneg _

theorem wSum_split (f : ℕ → ℂ) (a m n : ℕ) :
    wSum f a (m + n) = wSum f a m + wSum f (a + m) n := by
  rw [wSum, wSum, wSum, Nat.add_comm m n, ← List.range'_append_1,
    List.map_append, List.sum_append]

theorem wSum_congr {f g : ℕ → ℂ} {a n : ℕ}
    (h : ∀ i, a ≤ i → i < a + n → f i = g i) : wSum f a n = wSum g a n := by
  unfold wSum
  congr 1
  apply List.map_congr_left
  intro i hi
  rcases List.mem_range'_1.mp hi with ⟨h1, h2⟩
  rw [h i h1 h2]

theorem wSum_const {f : ℕ → ℂ} {a n : ℕ} {c : ℂ}
    (h : ∀ i, a ≤ i → i < a + n → f i = c) :
    wSum f a n = n * Complex.abs c := by
  rw [wSum_congr (g := fun _ => c) h]
  rw [wSum, List.map_const', List.length_range', List.sum_replicate, nsmul_eq_mul]

theorem wSum_zero {f : ℕ → ℂ} {a n : ℕ}
    (h : ∀ i, a ≤ i → i < a + n → f i = 0) : wSum f a n = 0 := by
  rw [wSum_const h]
  simp

theorem wSum_pos {f : ℕ → ℂ} {a n t : ℕ}
    (h1 : a ≤ t) (h2 : t < a + n) (h3 : f t ≠ 0) : 0 < wSum f a n := by
  have hsplit : n = (t - a) + (1 + (a + n - t - 1)) := by omega
  rw [hsplit, wSum_split, wSum_split]
  have hat : a + (t - a) = t := by omega
  rw [hat]
  have hone : wSum f t 1 = Complex.abs (f t) := by
    rw [wSum, List.range'_one]
    simp
  have : 0 < wSum f t 1 := by
    rw [hone]; exact Complex.abs.pos h3
  have h4 := wSum_nonneg f a (t - a)
  have h5 := wSum_nonneg f (t + 1) (a + n - t - 1)
  linarith

theorem absSum_nonneg (l : List ℂ) : 0 ≤ absSum l := by
  apply List.sum_nonneg
  intro x hx
  rcases List.mem_map.mp hx with ⟨z, _, rfl⟩
  exact Complex.abs.nonneg _

theorem absSum_map_range' (f : ℕ → ℂ) (a n : ℕ) :
    absSum ((List.range' a n).map f) = wSum f a n := by
  rw [absSum, List.map_map, wSum]
  rfl

/-! ### Slices of function-generated channels -/

theorem pySlice_length (l : List ℂ) (a b : ℕ) :
    (pySlice l a b).length = min (b - a) (l.length - a) := by
  rw [pySlice, List.length_take, List.length_drop]

theorem pySlice_range_map (f : ℕ → ℂ) (cl a b : ℕ) :
    pySlice ((List.range cl).map f) a b =
      (List.range' a (min (b - a) (cl - a))).map f := by
  rw [pySlice, ← List.map_drop, ← List.map_take, List.range_eq_range',
    drop_range', take_range']
  simp

theorem absSum_pySlice_range_map (f : ℕ → ℂ) (cl a b : ℕ) :
    absSum (pySlice ((List.range cl).map f) a b) =
      wSum f a (min (b - a) (cl - a)) := by
  rw [pySlice_range_map, absSum_map_range']

/-- Number of entries of the power profile: `range(0, T_TF - T_NULL, N)`
has 9698 elements. -/
theorem pyRange_profile_length :
    (T_TF - T_NULL + nStride - 1) / nStride = 9698 := by
  norm_num [T_TF, T_NULL, nStride]

/-- Closed form of the power profile of a channel generated by `f`. -/
theorem channel_out_power_map (f : ℕ → ℂ) (cl : ℕ) :
    channel_out_power ((List.range cl).map f) 0 =
      (List.range 9698).map
        (fun k => wSum f (k * nStride) (min T_NULL (cl - k * nStride))) := by
  unfold channel_out_power pyRange
  rw [pyRange_profile_length, List.map_map]
  apply List.map_congr_left
  intro k _
  show absSum (pySlice ((List.range cl).map f)
      (0 + k * nStride) (0 + k * nStride + T_NULL)) = _
  rw [absSum_pySlice_range_map]
  congr 1 <;> omega

theorem channel_out_power_length (channel : List ℂ) (start_ix : ℕ) :
    (channel_out_power channel start_ix).length = 9698 := by
  unfold channel_out_power pyRange
  rw [List.length_map, List.length_map, List.length_range, pyRange_profile_length]

/-! ### The NULL-offset range invariant -/

theorem argmin_profile_lt (channel : List ℂ) (start_ix : ℕ) :
    argmin (channel_out_power channel start_ix) < 9698 := by
  have hne : channel_out_power channel start_ix ≠ [] := by
    intro h
    have hl := channel_out_power_length channel start_ix
    rw [h] at hl
    simp at hl
  have h := argmin_lt_length hne
  rwa [channel_out_power_length] at h

/-- C4: for every channel and every frame start, the NULL-symbol offset
found by the subsampled power scan lies in the searched range
`[0, T_TF - T_NULL)`. -/
theorem C4_null_offset_in_searched_range (channel : List ℂ) (start_ix : ℕ) :
    tNull channel start_ix < T_TF - T_NULL := by
  have h := argmin_profile_lt channel start_ix
  rw [tNull]
  have h2 : nStride * argmin (channel_out_power channel start_ix) ≤ nStride * 9697 :=
    Nat.mul_le_mul_left _ (by omega)
  norm_num [nStride, T_TF, T_NULL] at h2 ⊢
  omega

/-- C9: the NULL-symbol offset is always an exact multiple of the
subsampling stride `N = 20`; the scan never resolves the position more
finely than the stride. -/
theorem C9_null_offset_stride_quantized (channel : List ℂ) (start_ix : ℕ) :
    nStride ∣ tNull channel start_ix :=
  Dvd.intro _ rfl

/-! ### Frame-scan lemmas -/

theorem runFrames_nil (phase_ref channel : List ℂ) (log : List ℕ) :
    runFrames phase_ref channel [] log = (log, some []) := rfl

theorem runFrames_cons (phase_ref channel : List ℂ) (k : ℕ) (ks : List ℕ)
    (log : List ℕ) :
    runFrames phase_ref channel (k :: ks) log =
      procFrame (calcOneCirS phase_ref channel (k * T_TF) log)
        (runFrames phase_ref channel ks) := rfl

theorem procFrame_none (log1 : List ℕ) (rest : List ℕ → List ℕ × Option (List (List ℝ))) :
    procFrame (log1, none) rest = (log1, none) := rfl

theorem procFrame_some (log1 : List ℕ) (v : List ℝ)
    (rest : List ℕ → List ℕ × Option (List (List ℝ))) :
    procFrame (log1, some v) rest =
      match rest log1 with
      | (log2, none) => (log2, none)
      | (log2, some vs) => (log2, some (v :: vs)) := rfl

theorem calcOneCirS_eq (phase_ref channel : List ℂ) (start_ix : ℕ) (log : List ℕ) :
    calcOneCirS phase_ref channel start_ix log =
      (log ++ [tNull channel start_ix], calcOneCir phase_ref channel start_ix) := rfl

theorem runFrames_cons_none (phase_ref channel : List ℂ) (k : ℕ) (ks : List ℕ)
    (log : List ℕ) (h : calcOneCir phase_ref channel (k * T_TF) = none) :
    runFrames phase_ref channel (k :: ks) log =
      (log ++ [tNull channel (k * T_TF)], none) := by
  rw [runFrames_cons, calcOneCirS_eq, h, procFrame_none]

theorem runFrames_cons_some (phase_ref channel : List ℂ) (k : ℕ) (ks : List ℕ)
    (log : List ℕ) (v : List ℝ)
    (h : calcOneCir phase_ref channel (k * T_TF) = some v) :
    runFrames phase_ref channel (k :: ks) log =
      match runFrames phase_ref channel ks (log ++ [tNull channel (k * T_TF)]) with
      | (log2, none) => (log2, none)
      | (log2, some vs) => (log2, some (v :: vs)) := by
  rw [runFrames_cons, calcOneCirS_eq, h, procFrame_some]

theorem runFrames_some_spec (phase_ref channel : List ℂ) :
    ∀ (ks : List ℕ) (log log' : List ℕ) (vs : List (List ℝ)),
      runFrames phase_ref channel ks log = (log', some vs) →
      vs.length = ks.length ∧ log'.length = log.length + vs.length := by
  intro ks
  induction ks with
  | nil =>
    intro log log' vs h
    rw [runFrames_nil] at h
    simp only [Prod.mk.injEq, Option.some.injEq] at h
    obtain ⟨rfl, rfl⟩ := h
    simp
  | cons k ks ih =>
    intro log log' vs h
    cases hc : calcOneCir phase_ref channel (k * T_TF) with
    | none =>
      rw [runFrames_cons_none _ _ _ _ _ hc] at h
      simp only [Prod.mk.injEq] at h
      exact absurd h.2 (by simp)
    | some v =>
      rw [runFrames_cons_some _ _ _ _ _ _ hc] at h
      rcases hr : runFrames phase_ref channel ks (log ++ [tNull channel (k * T_TF)])
        with ⟨log2, o⟩
      rw [hr] at h
      cases o with
      | none =>
        simp only [Prod.mk.injEq] at h
        exact absurd h.2 (by simp)
      | some vs2 =>
        simp only [Prod.mk.injEq, Option.some.injEq] at h
        obtain ⟨rfl, rfl⟩ := h
        obtain ⟨h3, h4⟩ := ih _ _ _ hr
        constructor
        · simp [h3]
        · rw [h4]
          simp
          omega

theorem runFrames_rows (phase_ref channel : List ℂ) :
    ∀ (ks : List ℕ) (log log' : List ℕ) (vs : List (List ℝ)),
      runFrames phase_ref channel ks log = (log', some vs) →
      ∀ v ∈ vs, ∃ k, calcOneCir phase_ref channel (k * T_TF) = some v := by
  intro ks
  induction ks with
  | nil =>
    intro log log' vs h v hv
    rw [runFrames_nil] at h
    simp only [Prod.mk.injEq, Option.some.injEq] at h
    obtain ⟨rfl, rfl⟩ := h
    cases hv
  | cons k ks ih =>
    intro log log' vs h v hv
    cases hc : calcOneCir phase_ref channel (k * T_TF) with
    | none =>
      rw [runFrames_cons_none _ _ _ _ _ hc] at h
      simp only [Prod.mk.injEq] at h
      exact absurd h.2 (by simp)
    | some v0 =>
      rw [runFrames_cons_some _ _ _ _ _ _ hc] at h
      rcases hr : runFrames phase_ref channel ks (log ++ [tNull channel (k * T_TF)])
        with ⟨log2, o⟩
      rw [hr] at h
      cases o with
      | none =>
        simp only [Prod.mk.injEq] at h
        exact absurd h.2 (by simp)
      | some vs2 =>
        simp only [Prod.mk.injEq, Option.some.injEq] at h
        obtain ⟨rfl, rfl⟩ := h
        rcases List.mem_cons.mp hv with rfl | hv2
        · exact ⟨k, hc⟩
        · exact ih _ _ _ hr v hv2

/-- C6: whenever the full scan completes, the CIR matrix has exactly
`floor(len(channel) / T_TF)` rows; a trailing partial frame contributes
no row. -/
theorem C6_row_count (phase_ref channel : List ℂ) (log : List ℕ)
    (m : List (List ℝ)) (h : plotScan phase_ref channel = (log, some m)) :
    m.length = channel.length / T_TF := by
  rw [plotScan] at h
  have := (runFrames_some_spec phase_ref channel _ _ _ _ h).1
  rwa [List.length_range] at this

theorem runFrames_none_log (phase_ref channel : List ℂ) :
    ∀ (ks : List ℕ) (log log' : List ℕ),
      runFrames phase_ref channel ks log = (log', none) →
      log.length + 1 ≤ log'.length := by
  intro ks
  induction ks with
  | nil =>
    intro log log' h
    rw [runFrames_nil] at h
    simp only [Prod.mk.injEq] at h
    exact absurd h.2 (by simp)
  | cons k ks ih =>
    intro log log' h
    cases hc : calcOneCir phase_ref channel (k * T_TF) with
    | none =>
      rw [runFrames_cons_none _ _ _ _ _ hc] at h
      simp only [Prod.mk.injEq] at h
      rw [← h.1]
      simp
    | some v =>
      rw [runFrames_cons_some _ _ _ _ _ _ hc] at h
      rcases hr : runFrames phase_ref channel ks (log ++ [tNull channel (k * T_TF)])
        with ⟨log2, o⟩
      rw [hr] at h
      cases o with
      | none =>
        simp only [Prod.mk.injEq] at h
        obtain ⟨rfl, -⟩ := h
        have h2 := ih _ _ hr
        simp at h2
        omega
      | some vs2 =>
        simp only [Prod.mk.injEq] at h
        exact absurd h.2 (by simp)

/-- C10: the NULL offset is appended to the offset log before the
correlation bank is computed, so a frame whose correlation aborts still
leaves its offset recorded: on a failed scan the log is strictly longer
than on entry, and on a successful scan it grows by exactly one entry
per CIR row. -/
theorem C10_log_appended_before_correlation :
    (∀ (phase_ref channel : List ℂ) (start_ix : ℕ) (log : List ℕ),
      calcOneCirS phase_ref channel start_ix log
        = (log ++ [tNull channel start_ix], calcOneCir phase_ref channel start_ix)) ∧
    (∀ (phase_ref channel : List ℂ) (ks log log' : List ℕ),
      (runFrames phase_ref channel ks log = (log', none) →
        log.length + 1 ≤ log'.length) ∧
      (∀ vs, runFrames phase_ref channel ks log = (log', some vs) →
        log'.length = log.length + vs.length)) := by
  constructor
  · intro phase_ref channel start_ix log
    rfl
  · intro phase_ref channel ks log log'
    constructor
    · exact runFrames_none_log phase_ref channel ks log log'
    · intro vs h
      exact (runFrames_some_spec phase_ref channel ks log log' vs h).2

theorem calcOneCir_some_length (phase_ref channel : List ℂ) (start_ix : ℕ)
    (v : List ℝ) (h : calcOneCir phase_ref channel start_ix = some v) :
    v.length = max_component_delay := by
  simp only [calcOneCir] at h
  rcases Option.map_eq_some'.mp h with ⟨w, hw, rfl⟩
  rw [List.length_map, seqOption_length hw, List.length_map, List.length_range]

/-- C7: every CIR vector produced by the estimator has length exactly
`max_component_delay = 1000`, and so does every row of the CIR matrix of
a completed scan. -/
theorem C7_cir_vector_length :
    (∀ (phase_ref channel : List ℂ) (start_ix : ℕ) (v : List ℝ),
      calcOneCir phase_ref channel start_ix = some v →
      v.length = max_component_delay) ∧
    (∀ (phase_ref channel : List ℂ) (log : List ℕ) (m : List (List ℝ)),
      plotScan phase_ref channel = (log, some m) →
      ∀ v ∈ m, v.length = max_component_delay) := by
  constructor
  · exact calcOneCir_some_length
  · intro phase_ref channel log m h v hv
    rw [plotScan] at h
    obtain ⟨k, hk⟩ := runFrames_rows phase_ref channel _ _ _ _ h v hv
    exact calcOneCir_some_length _ _ _ _ hk

/-- C8: every entry of a CIR vector produced by the estimator is a
non-negative real number. -/
theorem C8_cir_entries_nonneg (phase_ref channel : List ℂ) (start_ix : ℕ)
    (v : List ℝ) (h : calcOneCir phase_ref channel start_ix = some v) :
    ∀ x ∈ v, 0 ≤ x := by
  simp only [calcOneCir] at h
  rcases Option.map_eq_some'.mp h with ⟨w, hw, rfl⟩
  intro x hx
  rcases List.mem_map.mp hx with ⟨y, hy, rfl⟩
  have h2 := seqOption_mem hw y hy
  rcases List.mem_map.mp h2 with ⟨i, _, hE⟩
  rcases Option.map_eq_some'.mp hE with ⟨z, -, rfl⟩
  exact div_nonneg (Complex.abs.nonneg z) (absSum_nonneg _)

/-- C3: when the correlation window of the largest candidate delay would
run past the end of the recording, the whole correlation bank aborts
(`np.corrcoef` raises on the length mismatch of the truncated slice);
the estimator never silently truncates the window and continues. -/
theorem C3_out_of_range_aborts (phase_ref channel : List ℂ) (start_ix : ℕ)
    (href : 0 < phase_ref.length)
    (hover : channel.length < start_ix + (tNull channel start_ix + T_NULL - 50)
      + (max_component_delay - 1) + phase_ref.length) :
    calcOneCir phase_ref channel start_ix = none := by
  simp only [calcOneCir]
  rw [Option.map_eq_none']
  apply seqOption_eq_none
  apply List.mem_map.mpr
  refine ⟨max_component_delay - 1, List.mem_range.mpr (by norm_num [max_component_delay]), ?_⟩
  rw [corrcoef01, if_neg, Option.map_none']
  rw [pySlice_length]
  omega

/-- Witness for C3: the empty recording with the standard-length phase
reference makes the largest-delay window run out of range, and the
correlation bank indeed aborts. -/
theorem C3_out_of_range_aborts_witness :
    0 < (List.replicate 2552 (0:ℂ)).length ∧
      calcOneCir (List.replicate 2552 (0:ℂ)) [] 0 = none := by
  have hlen : (List.replicate 2552 (0:ℂ)).length = 2552 := List.length_replicate 2552 0
  constructor
  · rw [hlen]; norm_num
  · apply C3_out_of_range_aborts (List.replicate 2552 (0:ℂ)) [] 0
      (by rw [hlen]; norm_num)
    rw [hlen, List.length_nil]
    simp only [T_NULL, max_component_delay]
    omega

/-! ### Evaluation on the all-zero one-frame recording -/

theorem map_range'_const : ∀ (n a : ℕ) (f : ℕ → ℂ) (c : ℂ),
    (∀ i, a ≤ i → i < a + n → f i = c) →
    (List.range' a n).map f = List.replicate n c := by
  intro n
  induction n with
  | zero => intro a f c _; simp
  | succ n ih =>
    intro a f c h
    rw [List.range'_succ, List.map_cons, List.replicate_succ,
      h a le_rfl (by omega), ih (a + 1) f c (fun i h1 h2 => h i (by omega) (by omega))]

theorem refZ_length : refZ.length = 2552 := by
  rw [refZ, List.length_replicate]

theorem zeroChannel_length : zeroChannel.length = T_TF := by
  rw [zeroChannel, List.length_map, List.length_range]

theorem pySlice_zeroChannel (a b : ℕ) :
    pySlice zeroChannel a b = List.replicate (min (b - a) (T_TF - a)) 0 := by
  rw [zeroChannel, pySlice_range_map]
  exact map_range'_const _ _ _ _ (fun i _ _ => rfl)

theorem absSum_replicate_zero (n : ℕ) : absSum (List.replicate n (0 : ℂ)) = 0 := by
  rw [absSum, List.map_replicate, map_zero, List.sum_replicate, smul_zero]

theorem channel_out_power_zeroChannel :
    channel_out_power zeroChannel 0 = (List.range 9698).map (fun _ => (0:ℝ)) := by
  rw [zeroChannel, channel_out_power_map]
  apply List.map_congr_left
  intro k _
  exact wSum_zero (fun i _ _ => rfl)

theorem tNull_zeroChannel : tNull zeroChannel 0 = 0 := by
  rw [tNull, channel_out_power_zeroChannel]
  have h : argmin ((List.range 9698).map (fun _ => (0:ℝ))) = 0 := by
    apply argmin_eq _ 0 (by rw [List.length_map, List.length_range]; norm_num)
    · intro j hj
      rw [List.get_eq_getElem, List.get_eq_getElem, List.getElem_map, List.getElem_map]
    · intro j hj
      omega
  rw [h, Nat.mul_zero]

theorem zip_replicate_self {α : Type} (a : α) :
    ∀ n, (List.replicate n a).zip (List.replicate n a) = List.replicate n (a, a) := by
  intro n
  induction n with
  | zero => rfl
  | succ n ih => rw [List.replicate_succ, List.zip_cons_cons, ih, List.replicate_succ]

theorem listMean_replicate_zero (n : ℕ) : listMean (List.replicate n (0 : ℂ)) = 0 := by
  rw [listMean, List.sum_replicate, smul_zero, zero_div]

theorem cov01_replicate_zero (n : ℕ) :
    cov01 (List.replicate n (0 : ℂ)) (List.replicate n (0 : ℂ)) = 0 := by
  rw [cov01, zip_replicate_self, listMean_replicate_zero, List.map_replicate]
  simp

theorem corrcoef01_refZ : corrcoef01 refZ refZ = some 0 := by
  rw [corrcoef01, if_pos rfl, refZ, cov01_replicate_zero]
  simp

theorem calcOneCir_zeroChannel :
    calcOneCir refZ zeroChannel 0 = some (List.replicate 1000 (0:ℝ)) := by
  have hmap : (List.range max_component_delay).map (fun i =>
      Option.map Complex.abs (corrcoef01
        (pySlice zeroChannel (0 + (tNull zeroChannel 0 + T_NULL - 50) + i)
          (0 + (tNull zeroChannel 0 + T_NULL - 50) + refZ.length + i)) refZ))
      = (List.range max_component_delay).map (fun _ => some (0:ℝ)) := by
    apply List.map_congr_left
    intro i hi
    have hi' : i < 1000 := by
      have h := List.mem_range.mp hi
      simpa [max_component_delay] using h
    have hslice : pySlice zeroChannel (0 + (tNull zeroChannel 0 + T_NULL - 50) + i)
        (0 + (tNull zeroChannel 0 + T_NULL - 50) + refZ.length + i) = refZ := by
      rw [tNull_zeroChannel, refZ_length, pySlice_zeroChannel, refZ]
      congr 1
      simp only [T_NULL, T_TF]
      omega
    rw [hslice, corrcoef01_refZ, Option.map_some', map_zero]
  simp only [calcOneCir]
  rw [hmap]
  have hseq : seqOption ((List.range max_component_delay).map (fun _ => some (0:ℝ)))
      = some ((List.range max_component_delay).map (fun _ => (0:ℝ))) :=
    seqOption_map_some (fun _ => (0:ℝ)) (List.range max_component_delay)
  rw [hseq, Option.map_some']
  have hcomp : ((fun v => v / absSum (pySlice zeroChannel 0 (0 + T_TF))) ∘ (fun _ : ℕ => (0:ℝ)))
      = (fun _ : ℕ => (0:ℝ)) := by
    funext j
    simp only [Function.comp_apply, zero_div]
  have hfinal : ((List.range max_component_delay).map (fun _ : ℕ => (0:ℝ))).map
      (fun v => v / absSum (pySlice zeroChannel 0 (0 + T_TF))) = List.replicate 1000 (0:ℝ) := by
    rw [List.map_map, hcomp, List.map_const', List.length_range]
    rfl
  rw [hfinal]

theorem plotScan_zeroChannel :
    plotScan refZ zeroChannel = ([0], some [List.replicate 1000 (0:ℝ)]) := by
  rw [plotScan, zeroChannel_length, Nat.div_self (by norm_num [T_TF] : 0 < T_TF)]
  rw [show List.range 1 = [0] from rfl]
  rw [runFrames_cons_some refZ zeroChannel 0 [] [] (List.replicate 1000 (0:ℝ))
    (by rw [Nat.zero_mul]; exact calcOneCir_zeroChannel)]
  rw [runFrames_nil]
  simp only [List.nil_append, Nat.zero_mul, tNull_zeroChannel]

theorem calcOneCir_nil (phase_ref : List ℂ) (h : 0 < phase_ref.length) :
    calcOneCir phase_ref [] 0 = none := by
  simp only [calcOneCir]
  rw [Option.map_eq_none']
  apply seqOption_eq_none
  apply List.mem_map.mpr
  refine ⟨0, List.mem_range.mpr (by norm_num [max_component_delay]), ?_⟩
  rw [corrcoef01, if_neg, Option.map_none']
  rw [pySlice_length, List.length_nil]
  omega

/-- C2: on the all-zero one-frame recording the channel power is zero,
yet `calc_one_cir_` still returns a CIR vector (the quotient with the
zero divisor; NaNs at runtime, `0` in the real-number embedding): no
explicit error is raised. -/
theorem C2_zero_power_returns_value :
    absSum (pySlice zeroChannel 0 (0 + T_TF)) = 0 ∧
      calcOneCir refZ zeroChannel 0 = some (List.replicate 1000 (0:ℝ)) := by
  constructor
  · rw [pySlice_zeroChannel, absSum_replicate_zero]
  · exact calcOneCir_zeroChannel

/-- Witness for C6: the zero one-frame recording completes its scan and
has exactly `196608 / 196608 = 1` row. -/
theorem C6_row_count_witness :
    ([List.replicate 1000 (0:ℝ)] : List (List ℝ)).length = zeroChannel.length / T_TF :=
  C6_row_count refZ zeroChannel [0] [List.replicate 1000 (0:ℝ)] plotScan_zeroChannel

/-- Witness for C7: both parts of the length invariant, evaluated on the
zero one-frame recording. -/
theorem C7_cir_vector_length_witness :
    (List.replicate 1000 (0:ℝ)).length = max_component_delay ∧
      ∀ v ∈ ([List.replicate 1000 (0:ℝ)] : List (List ℝ)), v.length = max_component_delay :=
  ⟨C7_cir_vector_length.1 refZ zeroChannel 0 (List.replicate 1000 (0:ℝ)) calcOneCir_zeroChannel,
   C7_cir_vector_length.2 refZ zeroChannel [0] [List.replicate 1000 (0:ℝ)] plotScan_zeroChannel⟩

/-- Witness for C8: the first entry of the CIR vector of the zero
one-frame recording is non-negative. -/
theorem C8_cir_entries_nonneg_witness : (0 : ℝ) ≤ 0 :=
  C8_cir_entries_nonneg refZ zeroChannel 0 (List.replicate 1000 (0:ℝ))
    calcOneCir_zeroChannel 0
    (List.mem_replicate.mpr ⟨by norm_num, rfl⟩)

/-- Witness for C10: a failing single-frame scan (empty recording forced
through one frame) leaves one recorded offset and no rows, while the
empty scan records nothing. -/
theorem C10_log_appended_before_correlation_witness :
    calcOneCirS refZ zeroChannel 0 []
        = ([] ++ [tNull zeroChannel 0], calcOneCir refZ zeroChannel 0) ∧
      ([] : List ℕ).length + 1 ≤ [tNull ([] : List ℂ) 0].length ∧
      ([] : List ℕ).length = ([] : List ℕ).length + ([] : List (List ℝ)).length := by
  refine ⟨C10_log_appended_before_correlation.1 refZ zeroChannel 0 [], ?_, ?_⟩
  · apply (C10_log_appended_before_correlation.2 refZ [] [0] [] [tNull ([] : List ℂ) 0]).1
    rw [runFrames_cons_none refZ [] 0 [] []
      (by rw [Nat.zero_mul]
          exact calcOneCir_nil refZ (by rw [refZ_length]; norm_num))]
    rw [Nat.zero_mul, List.nil_append]
  · exact (C10_log_appended_before_correlation.2 refZ [] [] [] []).2 []
      (runFrames_nil refZ [] [])

/-! ### Behaviour under scaling of the recording -/

theorem list_sum_map_mul_left {α : Type} (c : ℝ) (g : α → ℝ) (l : List α) :
    (l.map (fun x => c * g x)).sum = c * (l.map g).sum := by
  induction l with
  | nil => simp
  | cons x xs ih => simp [ih, mul_add]

theorem clist_sum_map_mul_left {α : Type} (c : ℂ) (g : α → ℂ) (l : List α) :
    (l.map (fun x => c * g x)).sum = c * (l.map g).sum := by
  induction l with
  | nil => simp
  | cons x xs ih => simp [ih, mul_add]

theorem absSum_smul (c : ℝ) (hc : 0 ≤ c) (l : List ℂ) :
    absSum (l.map (fun z => (c : ℂ) * z)) = c * absSum l := by
  rw [absSum, absSum, List.map_map]
  have h : (Complex.abs ∘ fun z => (c : ℂ) * z) = fun z => c * Complex.abs z := by
    funext z
    simp only [Function.comp_apply, map_mul, Complex.abs_ofReal, abs_of_nonneg hc]
  rw [h, list_sum_map_mul_left]

theorem pySlice_map (g : ℂ → ℂ) (l : List ℂ) (a b : ℕ) :
    pySlice (l.map g) a b = (pySlice l a b).map g := by
  rw [pySlice, pySlice, ← List.map_drop, ← List.map_take]

theorem channel_out_power_smul (c : ℝ) (hc : 0 ≤ c) (channel : List ℂ) (s : ℕ) :
    channel_out_power (channel.map (fun z => (c : ℂ) * z)) s
      = (channel_out_power channel s).map (fun x => c * x) := by
  rw [channel_out_power, channel_out_power, List.map_map]
  apply List.map_congr_left
  intro t _
  simp only [Function.comp_apply]
  rw [pySlice_map, absSum_smul c hc]

theorem foldl_min_smul (c : ℝ) (hc : 0 ≤ c) (xs : List ℝ) :
    ∀ x : ℝ, (xs.map (fun y => c * y)).foldl min (c * x) = c * xs.foldl min x := by
  induction xs with
  | nil => intro x; rfl
  | cons y ys ih =>
    intro x
    rw [List.map_cons, List.foldl_cons, List.foldl_cons,
      ← mul_min_of_nonneg _ _ hc, ih (min x y)]

theorem minVal_smul (c : ℝ) (hc : 0 ≤ c) (l : List ℝ) :
    minVal (l.map (fun y => c * y)) = c * minVal l := by
  cases l with
  | nil =>
    show (0 : ℝ) = c * 0
    rw [mul_zero]
  | cons x xs =>
    show (xs.map (fun y => c * y)).foldl min (c * x) = c * xs.foldl min x
    exact foldl_min_smul c hc xs x

theorem indexOf_map_of_injective {f : ℝ → ℝ} (hf : Function.Injective f) :
    ∀ (l : List ℝ) (a : ℝ), (l.map f).indexOf (f a) = l.indexOf a := by
  intro l
  induction l with
  | nil => intro a; rfl
  | cons x xs ih =>
    intro a
    rcases eq_or_ne x a with rfl | hne
    · rw [List.map_cons, List.indexOf_cons_self, List.indexOf_cons_self]
    · rw [List.map_cons, List.indexOf_cons_ne _ (fun h => hne (hf h)),
        List.indexOf_cons_ne _ hne, ih a]

theorem argmin_smul (c : ℝ) (hc : 0 < c) (l : List ℝ) :
    argmin (l.map (fun y => c * y)) = argmin l := by
  rw [argmin, argmin, minVal_smul c hc.le,
    indexOf_map_of_injective (mul_right_injective₀ (ne_of_gt hc)) l (minVal l)]

theorem tNull_smul (channel : List ℂ) (s : ℕ) (c : ℝ) (hc : 0 < c) :
    tNull (channel.map (fun z => (c : ℂ) * z)) s = tNull channel s := by
  rw [tNull, tNull, channel_out_power_smul c hc.le, argmin_smul c hc]

theorem listMean_map_mul (c : ℂ) (l : List ℂ) :
    listMean (l.map (fun z => c * z)) = c * listMean l := by
  rw [listMean, listMean, List.length_map]
  have h : (l.map (fun z => c * z)).sum = c * l.sum := by
    have := clist_sum_map_mul_left c id l
    simpa using this
  rw [h, mul_div_assoc]

theorem cov01_smul_left (c : ℝ) (x y : List ℂ) :
    cov01 (x.map (fun z => (c : ℂ) * z)) y = (c : ℂ) * cov01 x y := by
  rw [cov01, cov01, List.length_map, List.zip_map_left, List.map_map,
    listMean_map_mul]
  have h : ((fun p : ℂ × ℂ =>
        (p.1 - (c : ℂ) * listMean x) * (starRingEnd ℂ) (p.2 - listMean y))
      ∘ Prod.map (fun z => (c : ℂ) * z) id)
      = fun p : ℂ × ℂ =>
        (c : ℂ) * ((p.1 - listMean x) * (starRingEnd ℂ) (p.2 - listMean y)) := by
    funext p
    rcases p with ⟨p1, p2⟩
    simp only [Prod.map, Function.comp_apply, id_eq]
    ring
  rw [h, clist_sum_map_mul_left, mul_div_assoc]

theorem cov01_smul_both (c : ℝ) (x y : List ℂ) :
    cov01 (x.map (fun z => (c : ℂ) * z)) (y.map (fun z => (c : ℂ) * z))
      = ((c * c : ℝ) : ℂ) * cov01 x y := by
  rw [cov01, cov01, List.length_map, List.zip_map, List.map_map,
    listMean_map_mul, listMean_map_mul]
  have h : ((fun p : ℂ × ℂ =>
        (p.1 - (c : ℂ) * listMean x) * (starRingEnd ℂ) (p.2 - (c : ℂ) * listMean y))
      ∘ Prod.map (fun z => (c : ℂ) * z) (fun z => (c : ℂ) * z))
      = fun p : ℂ × ℂ =>
        ((c * c : ℝ) : ℂ) * ((p.1 - listMean x) * (starRingEnd ℂ) (p.2 - listMean y)) := by
    funext p
    rcases p with ⟨p1, p2⟩
    simp only [Prod.map, Function.comp_apply]
    rw [← mul_sub, ← mul_sub, map_mul, Complex.conj_ofReal, Complex.ofReal_mul]
    ring
  rw [h, clist_sum_map_mul_left, mul_div_assoc]

theorem corrcoef01_smul (c : ℝ) (hc : 0 < c) (x y : List ℂ) :
    corrcoef01 (x.map (fun z => (c : ℂ) * z)) y = corrcoef01 x y := by
  rw [corrcoef01, corrcoef01, List.length_map]
  by_cases hl : x.length = y.length
  · rw [if_pos hl, if_pos hl]
    congr 1
    rw [cov01_smul_left, cov01_smul_both, Complex.re_ofReal_mul,
      Real.sqrt_mul (mul_nonneg hc.le hc.le), Real.sqrt_mul_self hc.le]
    rw [show c * Real.sqrt (cov01 x x).re * Real.sqrt (cov01 y y).re
        = c * (Real.sqrt (cov01 x x).re * Real.sqrt (cov01 y y).re) from mul_assoc _ _ _]
    rw [Complex.ofReal_mul]
    exact mul_div_mul_left _ _ (Complex.ofReal_ne_zero.mpr (ne_of_gt hc))
  · rw [if_neg hl, if_neg hl]

theorem calcOneCir_smul (phase_ref channel : List ℂ) (start_ix : ℕ)
    (c : ℝ) (hc : 0 < c) :
    calcOneCir phase_ref (channel.map (fun z => (c : ℂ) * z)) start_ix
      = Option.map (fun v => v.map (fun x => x / c))
          (calcOneCir phase_ref channel start_ix) := by
  simp only [calcOneCir]
  rw [tNull_smul channel start_ix c hc]
  have hentries : (List.range max_component_delay).map (fun i =>
      Option.map Complex.abs (corrcoef01
        (pySlice (channel.map (fun z => (c : ℂ) * z))
          (start_ix + (tNull channel start_ix + T_NULL - 50) + i)
          (start_ix + (tNull channel start_ix + T_NULL - 50) + phase_ref.length + i))
        phase_ref))
      = (List.range max_component_delay).map (fun i =>
      Option.map Complex.abs (corrcoef01
        (pySlice channel
          (start_ix + (tNull channel start_ix + T_NULL - 50) + i)
          (start_ix + (tNull channel start_ix + T_NULL - 50) + phase_ref.length + i))
        phase_ref)) := by
    apply List.map_congr_left
    intro i _
    rw [pySlice_map, corrcoef01_smul c hc]
  rw [hentries]
  rw [pySlice_map, absSum_smul c hc.le]
  cases hw : seqOption ((List.range max_component_delay).map (fun i =>
      Option.map Complex.abs (corrcoef01
        (pySlice channel
          (start_ix + (tNull channel start_ix + T_NULL - 50) + i)
          (start_ix + (tNull channel start_ix + T_NULL - 50) + phase_ref.length + i))
        phase_ref))) with
  | none => rw [Option.map_none', Option.map_none', Option.map_none']
  | some w =>
    rw [Option.map_some', Option.map_some', Option.map_some']
    refine congrArg some ?_
    rw [List.map_map]
    apply List.map_congr_left
    intro x _
    show x / (c * absSum (pySlice channel start_ix (start_ix + T_TF)))
      = (x / absSum (pySlice channel start_ix (start_ix + T_TF))) / c
    rw [div_div, mul_comm]

/-- C1 (amended): scaling every sample of the recording by a positive
real constant `c` leaves the NULL offset and the raw correlation
magnitudes unchanged, but — because the normalization divides by the
channel power, which scales by `c` — every entry of the resulting
CIRVector is divided by `c`.  The CIRVector is not unchanged. -/
theorem C1_scaling_divides_cir (phase_ref channel : List ℂ) (start_ix : ℕ)
    (c : ℝ) (hc : 0 < c) :
    calcOneCir phase_ref (channel.map (fun z => (c : ℂ) * z)) start_ix
      = Option.map (fun v => v.map (fun x => x / c))
          (calcOneCir phase_ref channel start_ix) :=
  calcOneCir_smul phase_ref channel start_ix c hc

/-- Witness for C1 (amended), at `c = 2` on the zero one-frame recording. -/
theorem C1_scaling_divides_cir_witness :
    0 < (2 : ℝ) ∧
      calcOneCir refZ (zeroChannel.map (fun z => ((2 : ℝ) : ℂ) * z)) 0
        = Option.map (fun v => v.map (fun x => x / (2 : ℝ)))
            (calcOneCir refZ zeroChannel 0) :=
  ⟨by norm_num, C1_scaling_divides_cir refZ zeroChannel 0 2 (by norm_num)⟩

/-! ### Evaluation on a recording with an embedded reference copy -/

theorem zip_self {α : Type} : ∀ (l : List α), l.zip l = l.map (fun a => (a, a)) := by
  intro l
  induction l with
  | nil => rfl
  | cons x xs ih => rw [List.zip_cons_cons, ih, List.map_cons]

theorem list_sum_ofReal : ∀ (l : List ℝ),
    (l.map Complex.ofReal).sum = Complex.ofReal l.sum := by
  intro l
  induction l with
  | nil => simp
  | cons x xs ih => rw [List.map_cons, List.sum_cons, List.sum_cons, ih, Complex.ofReal_add]

theorem cov01_self_ofReal (x : List ℂ) :
    cov01 x x = (((x.map (fun z => Complex.normSq (z - listMean x))).sum
      / ((x.length : ℝ) - 1) : ℝ) : ℂ) := by
  rw [cov01, zip_self, List.map_map]
  have h : ((fun p : ℂ × ℂ => (p.1 - listMean x) * (starRingEnd ℂ) (p.2 - listMean x))
      ∘ fun a => (a, a))
      = Complex.ofReal ∘ (fun z => Complex.normSq (z - listMean x)) := by
    funext z
    simp only [Function.comp_apply]
    exact Complex.mul_conj _
  rw [h, ← List.map_map, list_sum_ofReal, Complex.ofReal_div]

theorem seqOption_isSome {α : Type} :
    ∀ {l : List (Option α)}, (∀ x ∈ l, x ≠ none) → ∃ w, seqOption l = some w := by
  intro l
  induction l with
  | nil => intro _; exact ⟨[], rfl⟩
  | cons o os ih =>
    intro h
    cases o with
    | none => exact absurd rfl (h none (List.mem_cons_self _ _))
    | some a =>
      obtain ⟨w, hw⟩ := ih (fun x hx => h x (List.mem_cons_of_mem _ hx))
      refine ⟨a :: w, ?_⟩
      show (seqOption os).map (fun l => a :: l) = some (a :: w)
      rw [hw, Option.map_some']

theorem seqOption_head {α : Type} :
    ∀ {l : List (Option α)} {w : List α} {a : α},
      seqOption l = some w → l.head? = some (some a) → w.head? = some a := by
  intro l
  cases l with
  | nil =>
    intro w a _ h2
    simp at h2
  | cons o os =>
    intro w a h1 h2
    rw [List.head?_cons] at h2
    obtain rfl := Option.some.inj h2
    rcases hrest : seqOption os with - | w2
    · rw [show seqOption (some a :: os) = (seqOption os).map (fun l => a :: l) from rfl,
        hrest, Option.map_none'] at h1
      cases h1
    · rw [show seqOption (some a :: os) = (seqOption os).map (fun l => a :: l) from rfl,
        hrest, Option.map_some'] at h1
      obtain rfl := (Option.some.inj h1).symm
      rfl

theorem chC_length : chC.length = T_TF := by
  rw [chC, List.length_map, List.length_range]

theorem refC_length : refC.length = 2552 := by
  rw [refC, List.length_append, List.length_replicate, List.length_replicate]

theorem tNull_chC : tNull chC 0 = 0 := by
  rw [tNull, chC, channel_out_power_map]
  have hF0 : wSum fC (0 * nStride) (min T_NULL (T_TF - 0 * nStride)) = 0 := by
    apply wSum_zero
    intro i h1 h2
    rw [fC, if_neg]
    rintro ⟨h3, -⟩
    simp only [T_NULL, nStride] at h2
    omega
  have h : argmin ((List.range 9698).map
      (fun k => wSum fC (k * nStride) (min T_NULL (T_TF - k * nStride)))) = 0 := by
    apply argmin_eq _ 0 (by rw [List.length_map, List.length_range]; norm_num)
    · intro j hj
      simp only [List.get_eq_getElem, List.getElem_map, List.getElem_range]
      rw [hF0]
      exact wSum_nonneg _ _ _
    · intro j hj
      omega
  rw [h, Nat.mul_zero]

theorem absSum_chC : absSum (pySlice chC 0 (0 + T_TF)) = 2502 := by
  rw [chC, pySlice_range_map]
  have h : min ((0 + T_TF) - 0) (T_TF - 0) = 2656 + (2502 + 191450) := by
    norm_num [T_TF]
  rw [h, absSum_map_range', wSum_split, wSum_split]
  have h1 : wSum fC 0 2656 = 0 := by
    apply wSum_zero
    intro i h1 h2
    rw [fC, if_neg]
    rintro ⟨h3, -⟩
    omega
  have h2 : wSum fC (0 + 2656) 2502 = (2502 : ℕ) * Complex.abs 1 := by
    apply wSum_const
    intro i h1 h2
    rw [fC, if_pos]
    omega
  have h3 : wSum fC (0 + 2656 + 2502) 191450 = 0 := by
    apply wSum_zero
    intro i h1 h2
    rw [fC, if_neg]
    rintro ⟨-, h4⟩
    omega
  rw [h1, h2, h3, map_one]
  norm_num

theorem pySlice_chC_refC : pySlice chC 2606 5158 = refC := by
  rw [chC, pySlice_range_map]
  have h : min (5158 - 2606) (T_TF - 2606) = 2502 + 50 := by
    norm_num [T_TF]
  rw [h, ← List.range'_append_1, List.map_append]
  rw [map_range'_const 50 2606 fC 0 (by
    intro i h1 h2
    rw [fC, if_neg]
    rintro ⟨h3, -⟩
    omega)]
  rw [map_range'_const 2502 (2606 + 50) fC 1 (by
    intro i h1 h2
    rw [fC, if_pos]
    omega)]
  rfl

theorem listMean_refC : listMean refC = (2502 : ℂ) / 2552 := by
  have hsum : refC.sum = (2502 : ℂ) := by
    rw [refC, List.sum_append, List.sum_replicate, List.sum_replicate]
    rw [smul_zero, zero_add, nsmul_eq_mul, mul_one]
    norm_num
  rw [listMean, hsum, refC_length]
  norm_num

theorem corrcoef01_refC_one : corrcoef01 refC refC = some 1 := by
  have hm : listMean refC ≠ 0 := by
    rw [listMean_refC]
    norm_num
  have hmem : (0 : ℂ) ∈ refC := by
    rw [refC]
    exact List.mem_append_left _ (List.mem_replicate.mpr ⟨by norm_num, rfl⟩)
  have hle : Complex.normSq ((0 : ℂ) - listMean refC)
      ≤ (refC.map (fun z => Complex.normSq (z - listMean refC))).sum := by
    apply List.single_le_sum
    · intro x hx
      rcases List.mem_map.mp hx with ⟨z, -, rfl⟩
      exact Complex.normSq_nonneg _
    · exact List.mem_map_of_mem _ hmem
  have hpos : 0 < Complex.normSq ((0 : ℂ) - listMean refC) := by
    rw [zero_sub, Complex.normSq_neg]
    exact Complex.normSq_pos.mpr hm
  have hSpos : 0 < (refC.map (fun z => Complex.normSq (z - listMean refC))).sum :=
    lt_of_lt_of_le hpos hle
  have hVpos : 0 < (refC.map (fun z => Complex.normSq (z - listMean refC))).sum
      / ((refC.length : ℝ) - 1) := by
    apply div_pos hSpos
    rw [refC_length]
    norm_num
  rw [corrcoef01, if_pos rfl, cov01_self_ofReal, Complex.ofReal_re,
    Real.mul_self_sqrt hVpos.le,
    div_self (Complex.ofReal_ne_zero.mpr (ne_of_gt hVpos))]

theorem hE0_chC : Option.map Complex.abs (corrcoef01
    (pySlice chC (0 + (tNull chC 0 + T_NULL - 50) + 0)
      (0 + (tNull chC 0 + T_NULL - 50) + refC.length + 0)) refC) = some 1 := by
  have hsl : pySlice chC (0 + (tNull chC 0 + T_NULL - 50) + 0)
      (0 + (tNull chC 0 + T_NULL - 50) + refC.length + 0) = refC := by
    rw [tNull_chC, refC_length]
    have e1 : 0 + (0 + T_NULL - 50) + 0 = 2606 := by norm_num [T_NULL]
    have e2 : 0 + (0 + T_NULL - 50) + 2552 + 0 = 5158 := by norm_num [T_NULL]
    rw [e1, e2]
    exact pySlice_chC_refC
  rw [hsl, corrcoef01_refC_one, Option.map_some', map_one]

/-- Counterexample to C1 as stated: scaling the recording `chC` by the
positive constant `2` changes the CIRVector (all entries are halved; the
first entry goes from `1/2502` to `1/5004`). -/
theorem C1_counterexample :
    calcOneCir refC (chC.map (fun z => ((2 : ℝ) : ℂ) * z)) 0
      ≠ calcOneCir refC chC 0 := by
  have hlen_slice : ∀ i, i < max_component_delay →
      (pySlice chC (0 + (tNull chC 0 + T_NULL - 50) + i)
        (0 + (tNull chC 0 + T_NULL - 50) + refC.length + i)).length = refC.length := by
    intro i hi
    rw [pySlice_length, chC_length, refC_length, tNull_chC]
    simp only [T_NULL, T_TF, max_component_delay] at *
    omega
  obtain ⟨w, hw⟩ : ∃ w, seqOption ((List.range max_component_delay).map (fun i =>
      Option.map Complex.abs (corrcoef01
        (pySlice chC (0 + (tNull chC 0 + T_NULL - 50) + i)
          (0 + (tNull chC 0 + T_NULL - 50) + refC.length + i)) refC))) = some w := by
    apply seqOption_isSome
    intro x hx
    rcases List.mem_map.mp hx with ⟨i, hi, rfl⟩
    rw [corrcoef01, if_pos (hlen_slice i (List.mem_range.mp hi))]
    rw [Option.map_some']
    exact Option.some_ne_none _
  have hR : calcOneCir refC chC 0
      = some (w.map (fun v => v / absSum (pySlice chC 0 (0 + T_TF)))) := by
    simp only [calcOneCir]
    rw [hw, Option.map_some']
  have hhead : w.head? = some 1 := by
    apply seqOption_head hw
    rw [List.head?_map, List.head?_range, if_neg (by norm_num [max_component_delay])]
    rw [Option.map_some']
    show some (Option.map Complex.abs (corrcoef01
      (pySlice chC (0 + (tNull chC 0 + T_NULL - 50) + 0)
        (0 + (tNull chC 0 + T_NULL - 50) + refC.length + 0)) refC)) = some (some 1)
    rw [hE0_chC]
  have hvhead : (w.map (fun v => v / absSum (pySlice chC 0 (0 + T_TF)))).head?
      = some (1 / 2502) := by
    rw [List.head?_map, hhead, Option.map_some', absSum_chC]
  intro heq
  rw [calcOneCir_smul refC chC 0 2 (by norm_num), hR, Option.map_some'] at heq
  have heq2 := Option.some.inj heq
  have h3 := congrArg List.head? heq2
  rw [List.head?_map, hvhead, Option.map_some'] at h3
  have h4 := Option.some.inj h3
  norm_num at h4

/-! ### The energy window sums of a frame with a planted NULL window -/

theorem wSum_nullChannel (p t : ℕ) (c : ℂ) :
    wSum (fun i => if p ≤ i ∧ i < p + T_NULL then 0 else c) t T_NULL
      = ((min ((p - t) + (t - p)) T_NULL : ℕ) : ℝ) * Complex.abs c := by
  rcases le_total t p with htp | hpt
  · rcases le_or_lt (t + T_NULL) p with hfar | hnear
    · -- window entirely before the zero block
      rw [wSum_const (c := c) (fun i h1 h2 => by
        rw [if_neg]
        rintro ⟨h3, -⟩
        omega)]
      congr 2
      omega
    · -- window overlaps the zero block from the left
      rw [show T_NULL = (p - t) + (T_NULL - (p - t)) from by omega, wSum_split]
      rw [wSum_const (c := c) (fun i h1 h2 => by
        rw [if_neg]
        rintro ⟨h3, -⟩
        omega)]
      rw [wSum_zero (fun i h1 h2 => by
        rw [if_pos]
        constructor <;> omega)]
      rw [add_zero]
      congr 2
      omega
  · rcases le_or_lt (p + T_NULL) t with hfar | hnear
    · -- window entirely after the zero block
      rw [wSum_const (c := c) (fun i h1 h2 => by
        rw [if_neg]
        rintro ⟨-, h3⟩
        omega)]
      congr 2
      omega
    · -- window overlaps the zero block from the right
      rw [show T_NULL = (p + T_NULL - t) + (T_NULL - (p + T_NULL - t)) from by omega,
        wSum_split]
      rw [wSum_zero (fun i h1 h2 => by
        rw [if_pos]
        constructor <;> omega)]
      rw [wSum_const (c := c) (fun i h1 h2 => by
        rw [if_neg]
        rintro ⟨-, h3⟩
        omega)]
      rw [zero_add]
      congr 2
      omega

/-- C5 (amended): for a synthetic one-frame recording whose samples all
share one non-zero value `c` except for an all-zero NULL window of
length `T_NULL` planted at offset `p`, the frame synchronizer returns an
offset within one subsampling stride of `p`. -/
theorem wSum_nullChannel_lit (p t : ℕ) (c : ℂ) :
    wSum (fun i => if p ≤ i ∧ i < p + 2656 then 0 else c) t 2656
      = ((min ((p - t) + (t - p)) 2656 : ℕ) : ℝ) * Complex.abs c :=
  wSum_nullChannel p t c

theorem C5_planted_null_found (p : ℕ) (c : ℂ) (hc : c ≠ 0)
    (hp : p + T_NULL ≤ T_TF) :
    tNull (nullChannel p c) 0 ≤ p + nStride ∧
      p ≤ tNull (nullChannel p c) 0 + nStride := by
  have habs : 0 < Complex.abs c := Complex.abs.pos hc
  rw [tNull, nullChannel, channel_out_power_map]
  simp only [nStride, T_NULL, T_TF] at hp ⊢
  have hentry : ∀ j, j < 9698 →
      wSum (fun i => if p ≤ i ∧ i < p + 2656 then 0 else c) (j * 20)
        (min 2656 (196608 - j * 20))
      = ((min ((p - j * 20) + (j * 20 - p)) 2656 : ℕ) : ℝ) * Complex.abs c := by
    intro j hj
    have hm : min 2656 (196608 - j * 20) = 2656 := by omega
    rw [hm, wSum_nullChannel_lit]
  have hlen : ((List.range 9698).map
      (fun k => wSum (fun i => if p ≤ i ∧ i < p + 2656 then 0 else c) (k * 20)
        (min 2656 (196608 - k * 20)))).length = 9698 := by
    rw [List.length_map, List.length_range]
  by_cases hbr : p % 20 ≤ 10 ∨ p / 20 = 9697
  · -- the first candidate (rounding down) is the first minimum
    have key : argmin ((List.range 9698).map
        (fun k => wSum (fun i => if p ≤ i ∧ i < p + 2656 then 0 else c) (k * 20)
          (min 2656 (196608 - k * 20)))) = p / 20 := by
      apply argmin_eq _ (p / 20) (by rw [hlen]; omega)
      · intro j hj
        have hj9 : j < 9698 := by rw [hlen] at hj; exact hj
        simp only [List.get_eq_getElem, List.getElem_map, List.getElem_range]
        rw [hentry (p / 20) (by omega), hentry j hj9]
        apply mul_le_mul_of_nonneg_right _ habs.le
        apply Nat.cast_le.mpr
        omega
      · intro j hj
        have hj9 : j < 9698 := by omega
        simp only [List.get_eq_getElem, List.getElem_map, List.getElem_range]
        rw [hentry (p / 20) (by omega), hentry j hj9]
        apply mul_lt_mul_of_pos_right _ habs
        apply Nat.cast_lt.mpr
        omega
    rw [key]
    constructor <;> omega
  · -- the second candidate (rounding up) is the first minimum
    have key : argmin ((List.range 9698).map
        (fun k => wSum (fun i => if p ≤ i ∧ i < p + 2656 then 0 else c) (k * 20)
          (min 2656 (196608 - k * 20)))) = p / 20 + 1 := by
      apply argmin_eq _ (p / 20 + 1) (by rw [hlen]; omega)
      · intro j hj
        have hj9 : j < 9698 := by rw [hlen] at hj; exact hj
        simp only [List.get_eq_getElem, List.getElem_map, List.getElem_range]
        rw [hentry (p / 20 + 1) (by omega), hentry j hj9]
        apply mul_le_mul_of_nonneg_right _ habs.le
        apply Nat.cast_le.mpr
        omega
      · intro j hj
        have hj9 : j < 9698 := by omega
        simp only [List.get_eq_getElem, List.getElem_map, List.getElem_range]
        rw [hentry (p / 20 + 1) (by omega), hentry j hj9]
        apply mul_lt_mul_of_pos_right _ habs
        apply Nat.cast_lt.mpr
        omega
    rw [key]
    constructor <;> omega

/-- Witness for C5 (amended): the NULL window planted at offset 0 with
all other samples equal to 1 is located at an offset within one stride. -/
theorem C5_planted_null_found_witness :
    (1 : ℂ) ≠ 0 ∧ 0 + T_NULL ≤ T_TF ∧
      (tNull (nullChannel 0 1) 0 ≤ 0 + nStride ∧
        0 ≤ tNull (nullChannel 0 1) 0 + nStride) :=
  ⟨one_ne_zero, by norm_num [T_NULL, T_TF],
    C5_planted_null_found 0 1 one_ne_zero (by norm_num [T_NULL, T_TF])⟩

/-! ### Evaluation of the frame synchronizer on `chC5` -/

theorem abs_tiny : Complex.abs ((1 / 1000 : ℝ) : ℂ) = 1 / 1000 := by
  rw [Complex.abs_ofReal]
  norm_num

theorem wSum_fC5_tiny (t : ℕ) (ht : 2680 ≤ t) :
    wSum fC5 t 2656 = 2656 * (1 / 1000 : ℝ) := by
  rw [wSum_const (c := ((1 / 1000 : ℝ) : ℂ)) (fun i h1 h2 => by
    rw [fC5, if_neg (by omega), if_neg (by omega), if_neg (by omega)])]
  rw [abs_tiny]
  norm_num

theorem wSum_fC5_zero : wSum fC5 0 2656 = 10 := by
  rw [show (2656 : ℕ) = 10 + 2646 from rfl, wSum_split]
  rw [wSum_const (c := (1 : ℂ)) (fun i h1 h2 => by
    rw [fC5, if_pos (by omega)])]
  rw [wSum_zero (fun i h1 h2 => by
    rw [fC5, if_neg (by omega), if_pos (by omega)])]
  rw [map_one]
  norm_num

theorem wSum_fC5_twenty : wSum fC5 20 2656 = 10 := by
  rw [show (2656 : ℕ) = 2646 + 10 from rfl, wSum_split]
  rw [wSum_zero (fun i h1 h2 => by
    rw [fC5, if_neg (by omega), if_pos (by omega)])]
  rw [show (20 : ℕ) + 2646 = 2666 from rfl]
  rw [wSum_const (c := (1 : ℂ)) (fun i h1 h2 => by
    rw [fC5, if_neg (by omega), if_neg (by omega), if_pos (by omega)])]
  rw [map_one]
  norm_num

theorem wSum_fC5_mid (t : ℕ) (h1 : 40 ≤ t) (h2 : t ≤ 2660) :
    wSum fC5 t 2656 = 14 + ((t - 24 : ℕ) : ℝ) * (1 / 1000 : ℝ) := by
  rw [show (2656 : ℕ) = (2666 - t) + (14 + (t - 24)) from by omega, wSum_split, wSum_split]
  rw [wSum_zero (fun i hi1 hi2 => by
    rw [fC5, if_neg (by omega), if_pos (by omega)])]
  rw [show t + (2666 - t) = 2666 from by omega]
  rw [wSum_const (c := (1 : ℂ)) (fun i hi1 hi2 => by
    rw [fC5, if_neg (by omega), if_neg (by omega), if_pos (by omega)])]
  rw [show (2666 : ℕ) + 14 = 2680 from rfl]
  rw [wSum_const (c := ((1 / 1000 : ℝ) : ℂ)) (fun i hi1 hi2 => by
    rw [fC5, if_neg (by omega), if_neg (by omega), if_neg (by omega)])]
  rw [map_one, abs_tiny]
  push_cast
  ring

theorem tNull_chC5 : tNull chC5 0 = 2680 := by
  rw [tNull, chC5, channel_out_power_map]
  simp only [nStride, T_NULL, T_TF]
  have hm : ∀ j, j < 9698 → min 2656 (196608 - j * 20) = 2656 := by
    intro j hj
    omega
  have hval : ∀ j, j < 9698 →
      wSum fC5 (j * 20) (min 2656 (196608 - j * 20)) = wSum fC5 (j * 20) 2656 := by
    intro j hj
    rw [hm j hj]
  have hcmp : ∀ j, j < 9698 → j ≠ 134 →
      2656 * (1 / 1000 : ℝ) ≤ wSum fC5 (j * 20) 2656 ∧
      (j < 134 → 2656 * (1 / 1000 : ℝ) < wSum fC5 (j * 20) 2656) := by
    intro j hj hne
    by_cases hj0 : j = 0
    · subst hj0
      rw [show (0 : ℕ) * 20 = 0 from by norm_num, wSum_fC5_zero]
      norm_num
    by_cases hj1 : j = 1
    · subst hj1
      rw [show (1 : ℕ) * 20 = 20 from by norm_num, wSum_fC5_twenty]
      norm_num
    by_cases hj2 : j ≤ 133
    · rw [wSum_fC5_mid (j * 20) (by omega) (by omega)]
      have hnn : (0 : ℝ) ≤ ((j * 20 - 24 : ℕ) : ℝ) * (1 / 1000 : ℝ) := by
        positivity
      constructor
      · nlinarith
      · intro _
        nlinarith
    · rw [wSum_fC5_tiny (j * 20) (by omega)]
      exact ⟨le_refl _, fun h => absurd h (by omega)⟩
  have key : argmin ((List.range 9698).map
      (fun k => wSum fC5 (k * 20) (min 2656 (196608 - k * 20)))) = 134 := by
    apply argmin_eq _ 134 (by rw [List.length_map, List.length_range]; norm_num)
    · intro j hj
      have hj9 : j < 9698 := by
        rw [List.length_map, List.length_range] at hj
        exact hj
      simp only [List.get_eq_getElem, List.getElem_map, List.getElem_range]
      rw [hval 134 (by norm_num), hval j hj9,
        show (134 : ℕ) * 20 = 2680 from by norm_num, wSum_fC5_tiny 2680 le_rfl]
      by_cases hne : j = 134
      · subst hne
        rw [show (134 : ℕ) * 20 = 2680 from by norm_num, wSum_fC5_tiny 2680 le_rfl]
      · exact (hcmp j hj9 hne).1
    · intro j hj
      have hj9 : j < 9698 := by omega
      simp only [List.get_eq_getElem, List.getElem_map, List.getElem_range]
      rw [hval 134 (by norm_num), hval j hj9,
        show (134 : ℕ) * 20 = 2680 from by norm_num, wSum_fC5_tiny 2680 le_rfl]
      exact (hcmp j hj9 (by omega)).2 hj
  rw [key]

/-- Counterexample to C5 as stated: `chC5` has its only all-zero NULL
window at frame-relative offset 10 and every other sample non-zero, yet
the frame synchronizer returns 2680, which differs from 10 by far more
than one subsampling stride. -/
theorem C5_counterexample :
    tNull chC5 0 = 2680 ∧ ¬(tNull chC5 0 ≤ 10 + nStride) := by
  refine ⟨tNull_chC5, ?_⟩
  rw [tNull_chC5]
  norm_num [nStride]

end OdrDabCir
